import Mathlib

/-!
# Verification of the metric engine of src/app.py

Shallow embedding of the financial metric computations of the dashboard:
calculate_cagr, calculate_volatility, calculate_max_drawdown, the rolling
volatility of plot_volatility_comparison, the inline price normalization of
the main flow, and display_comparison_metric.

Prices are modelled as real numbers.  Python float results that can be NaN
or infinite (numpy produces them instead of raising) are modelled by the
type PyVal; the one place where the code can actually raise (the integer
division 1 / years with years = 0) is modelled with Except.
-/

namespace App

noncomputable section

/-- Python round(x, 2): round to two decimals, ties to even (banker's
rounding).  bankRound rounds a real to the nearest integer, ties to even. -/
def bankRound (f : ℝ) : ℤ :=
  if Int.fract f = 1 / 2 then (if Even ⌊f⌋ then ⌊f⌋ else ⌊f⌋ + 1) else round f

/-- round(x, 2) of the source, on reals. -/
def pyround2 (x : ℝ) : ℝ := (bankRound (x * 100) : ℝ) / 100

/-- Model of a Python/numpy float result: a real number, NaN, or a signed
infinity.  numpy arithmetic produces these instead of raising. -/
inductive PyVal where
  | nan : PyVal
  | inf : PyVal
  | ninf : PyVal
  | real : ℝ → PyVal

/-- Whether a Python float value is an ordinary (finite) number. -/
def PyVal.isReal : PyVal → Bool
  | .real _ => true
  | _ => false

/-- Subtraction of a real constant, with NaN/infinity propagation. -/
def PyVal.subC : PyVal → ℝ → PyVal
  | .nan, _ => .nan
  | .inf, _ => .inf
  | .ninf, _ => .ninf
  | .real x, c => .real (x - c)

/-- Multiplication by a real constant, with NaN/infinity propagation. -/
def PyVal.mulC : PyVal → ℝ → PyVal
  | .nan, _ => .nan
  | .inf, c => if 0 < c then .inf else if c < 0 then .ninf else .nan
  | .ninf, c => if 0 < c then .ninf else if c < 0 then .inf else .nan
  | .real x, c => .real (x * c)

/-- round(v, 2): NaN and infinities are returned unchanged. -/
def PyVal.round2 : PyVal → PyVal
  | .nan => .nan
  | .inf => .inf
  | .ninf => .ninf
  | .real x => .real (pyround2 x)

/-- numpy float division: division by zero yields a signed infinity
(or NaN for 0/0) with a warning, it does not raise. -/
def pydiv (a b : ℝ) : PyVal :=
  if b = 0 then (if 0 < a then .inf else if a < 0 then .ninf else .nan)
  else .real (a / b)

open Classical in
/-- numpy float power v ** e, for the exponents the source can produce
(e = 1 / years, so e is in [-1, 1] and nonzero): a negative finite base
with a non-integral exponent gives NaN; 0.0 to a negative power gives
infinity; infinite bases follow IEEE pow. -/
def pypow (v : PyVal) (e : ℝ) : PyVal :=
  match v with
  | .nan => .nan
  | .inf => if 0 < e then .inf else if e < 0 then .real 0 else .real 1
  | .ninf =>
      if e = 1 then .ninf
      else if 0 < e then .inf
      else if e < 0 then .real 0 else .real 1
  | .real x =>
      if x = 0 ∧ e < 0 then .inf
      else if 0 ≤ x then .real (x ^ e)
      else if ∃ n : ℤ, (n : ℝ) = e then .real (x ^ e)
      else .nan

/-- calculate_cagr of src/app.py (lines 189-195).  The only guard in the
source is prices being None or empty; years = 0 raises ZeroDivisionError
(modelled as Except.error); everything else flows through numpy float
arithmetic. -/
def calculate_cagr (prices : List ℝ) (years : ℤ) : Except Unit (Option PyVal) :=
  if prices.isEmpty then .ok none
  else
    let start_price := prices.headD 0
    let end_price := prices.getLastD 0
    if years = 0 then .error ()
    else .ok (some (PyVal.round2 (PyVal.mulC (PyVal.subC
      (pypow (pydiv end_price start_price) ((1 : ℝ) / (years : ℝ))) 1) 100)))

/-- pct_change().dropna() of a chronologically ordered close-price column:
the period-over-period returns cur / prev - 1 of consecutive points. -/
def pctChange (prices : List ℝ) : List ℝ :=
  List.zipWith (fun prev cur => cur / prev - 1) prices prices.tail

/-- Arithmetic mean of a list (sum / length). -/
def mean (l : List ℝ) : ℝ := l.sum / l.length

/-- Sum of squared deviations from the mean. -/
def sqDev (l : List ℝ) : ℝ := (l.map (fun r => (r - mean l) ^ 2)).sum

/-- Population variance (denominator n), the np.std default (ddof 0). -/
def popVar (l : List ℝ) : ℝ := sqDev l / l.length

/-- Sample variance (denominator n - 1), the pandas rolling std default
(ddof 1). -/
def sampleVar (l : List ℝ) : ℝ := sqDev l / ((l.length : ℝ) - 1)

/-- np.std: population standard deviation; NaN on an empty input
(numpy warns and returns NaN, it does not raise). -/
def np_std (l : List ℝ) : PyVal :=
  if l.isEmpty then .nan else .real (Real.sqrt (popVar l))

/-- calculate_volatility of src/app.py (lines 197-202): np.std of the
returns, annualized by sqrt 252, in percent, rounded to 2 decimals. -/
def calculate_volatility (prices : List ℝ) : Option PyVal :=
  if prices.isEmpty then none
  else some (PyVal.round2 (PyVal.mulC (PyVal.mulC
    (np_std (pctChange prices)) (Real.sqrt 252)) 100))

/-- Cumulative products of a list given the product accumulated so far. -/
def cumprodAux (acc : ℝ) : List ℝ → List ℝ
  | [] => []
  | x :: xs => (acc * x) :: cumprodAux (acc * x) xs

/-- pandas Series.cumprod of the growth factors (1 + r). -/
def cumprod (l : List ℝ) : List ℝ := cumprodAux 1 l

/-- Running maxima of a list given the maximum accumulated so far. -/
def runningMaxAux (acc : ℝ) : List ℝ → List ℝ
  | [] => []
  | x :: xs => max acc x :: runningMaxAux (max acc x) xs

/-- expanding(min_periods=1).max(): the running peak of the series. -/
def runningMax : List ℝ → List ℝ
  | [] => []
  | x :: xs => x :: runningMaxAux x xs

/-- calculate_max_drawdown of src/app.py (lines 204-210).  The leading NaN
that pct_change puts at position 0 is skipped by cumprod, expanding max and
min alike, so the model works on the n - 1 real growth factors; a
single-point series leaves an all-NaN drawdown column whose min is NaN. -/
def calculate_max_drawdown (prices : List ℝ) : Option PyVal :=
  if prices.isEmpty then none
  else
    let cumulative := cumprod ((pctChange prices).map (· + 1))
    let peak := runningMax cumulative
    let drawdown := List.zipWith (fun c p => (c / p - 1) * 100) cumulative peak
    match drawdown with
    | [] => some .nan
    | d :: ds => some (.real (pyround2 (ds.foldl min d)))

/-- The trailing window of length w of the returns series ending at
index i (inclusive), as pandas rolling uses it. -/
def windowAt (w : ℕ) (l : List ℝ) (i : ℕ) : List ℝ :=
  (l.take (i + 1)).drop (i + 1 - w)

/-- rolling(window=w).std() of pandas: one entry per input entry; NaN until
the window is full, then the SAMPLE standard deviation (ddof 1) of the
trailing w entries. -/
def rollingStd (w : ℕ) (l : List ℝ) : List PyVal :=
  (List.range l.length).map (fun i =>
    if w ≤ i + 1 then .real (Real.sqrt (sampleVar (windowAt w l i))) else .nan)

/-- The rolling volatility series of plot_volatility_comparison
(src/app.py lines 218-219): rolling std of the returns over a 63-day
window, annualized by sqrt 252, in percent (not rounded). -/
def rolling_vol (prices : List ℝ) : List PyVal :=
  (rollingStd 63 (pctChange prices)).map
    (fun v => PyVal.mulC (PyVal.mulC v (Real.sqrt 252)) 100)

/-- The inline normalization of the main flow (src/app.py line 352):
prices / prices.iloc[0] * 100, on the close values. -/
def norm_prices : List ℝ → List ℝ
  | [] => []
  | p0 :: rest => (p0 :: rest).map (fun c => c / p0 * 100)

/-- The same normalization keeping the date index of the DataFrame:
division by a scalar rescales the close column and leaves the index
untouched. -/
def norm_prices_indexed : List (ℕ × ℝ) → List (ℕ × ℝ)
  | [] => []
  | (t0, c0) :: rest => ((t0, c0) :: rest).map (fun tc => (tc.1, tc.2 / c0 * 100))

/-- The css badge class chosen by display_comparison_metric: positive
renders the favorable style, negative the unfavorable one. -/
inductive Badge where
  | positive : Badge
  | negative : Badge
  | neutral : Badge
deriving DecidableEq

/-- display_comparison_metric of src/app.py (lines 264-290), reduced to
its observable outcome: when either value is None nothing is rendered
(none); otherwise the sign of diff = value1 - value2 together with the
reverse flag picks the badge class. -/
def display_comparison_metric (value1 value2 : Option ℝ) (reverse : Bool) :
    Option Badge :=
  match value1, value2 with
  | some v1, some v2 =>
    let diff := v1 - v2
    if 0 < diff then some (if reverse then .negative else .positive)
    else if diff < 0 then some (if reverse then .positive else .negative)
    else some .neutral
  | _, _ => none

/-- A 64-point price series: 63 closes at 1 followed by one close at 2.
Its 63 returns fill exactly one rolling window. -/
def demoPrices : List ℝ := List.replicate 63 1 ++ [2]

end

section RoundingLemmas

lemma bankRound_intCast (n : ℤ) : bankRound (n : ℝ) = n := by
  unfold bankRound
  rw [Int.fract_intCast, if_neg (by norm_num), round_intCast]

lemma pyround2_eq_of_int (x : ℝ) (n : ℤ) (h : x * 100 = (n : ℝ)) :
    pyround2 x = (n : ℝ) / 100 := by
  unfold pyround2
  rw [h, bankRound_intCast]

lemma pyround2_zero : pyround2 0 = 0 := by
  rw [pyround2_eq_of_int 0 0 (by norm_num)]
  norm_num

lemma abs_bankRound_sub (f : ℝ) : |(bankRound f : ℝ) - f| ≤ 1 / 2 := by
  unfold bankRound
  split_ifs with h h2
  · have hfl := Int.floor_add_fract f
    rw [h] at hfl
    have h3 : (⌊f⌋ : ℝ) - f = -(1 / 2) := by linarith
    rw [h3, abs_neg, abs_of_nonneg (by norm_num : (0:ℝ) ≤ 1 / 2)]
  · have hfl := Int.floor_add_fract f
    rw [h] at hfl
    have h3 : ((⌊f⌋ + 1 : ℤ) : ℝ) - f = 1 / 2 := by push_cast; linarith
    rw [h3, abs_of_nonneg (by norm_num : (0:ℝ) ≤ 1 / 2)]
  · rw [abs_sub_comm]
    exact abs_sub_round f

lemma abs_pyround2_sub (x : ℝ) : |pyround2 x - x| ≤ 1 / 200 := by
  have h := abs_bankRound_sub (x * 100)
  unfold pyround2
  have heq : (bankRound (x * 100) : ℝ) / 100 - x =
      ((bankRound (x * 100) : ℝ) - x * 100) / 100 := by ring
  rw [heq, abs_div, abs_of_pos (by norm_num : (0:ℝ) < 100)]
  linarith

lemma bankRound_nonpos {f : ℝ} (hf : f ≤ 0) : bankRound f ≤ 0 := by
  unfold bankRound
  split_ifs with h h2
  · have hfl := Int.floor_add_fract f
    rw [h] at hfl
    have h3 : (⌊f⌋ : ℝ) < 0 := by linarith
    have h4 : ⌊f⌋ < 0 := by exact_mod_cast h3
    omega
  · have hfl := Int.floor_add_fract f
    rw [h] at hfl
    have h3 : (⌊f⌋ : ℝ) ≤ -(1 / 2) := by linarith
    have h4 : ⌊f⌋ < 0 := by
      by_contra hc
      push_neg at hc
      have : (0 : ℝ) ≤ (⌊f⌋ : ℝ) := by exact_mod_cast hc
      linarith
    omega
  · rw [round_eq]
    have h1 : f + 1 / 2 ≤ 1 / 2 := by linarith
    calc ⌊f + 1 / 2⌋ ≤ ⌊(1 / 2 : ℝ)⌋ := Int.floor_mono h1
    _ = 0 := by norm_num [Int.floor_eq_zero_iff]

lemma pyround2_nonpos {x : ℝ} (hx : x ≤ 0) : pyround2 x ≤ 0 := by
  unfold pyround2
  have h : bankRound (x * 100) ≤ 0 := bankRound_nonpos (by nlinarith)
  have h2 : (bankRound (x * 100) : ℝ) ≤ 0 := by exact_mod_cast h
  linarith

end RoundingLemmas

section ListLemmas

lemma headD_mem {l : List ℝ} (h : l ≠ []) : l.headD 0 ∈ l := by
  cases l with
  | nil => exact absurd rfl h
  | cons a t => simp

lemma getLastD_mem {l : List ℝ} (h : l ≠ []) : l.getLastD 0 ∈ l := by
  cases l with
  | nil => exact absurd rfl h
  | cons a t =>
    rw [List.getLastD_eq_getLast?, List.getLast?_eq_getLast _ h]
    exact List.getLast_mem h

lemma sqrt_le_bound {a b : ℝ} (hb : 0 ≤ b) (h : a ≤ b ^ 2) : Real.sqrt a ≤ b := by
  calc Real.sqrt a ≤ Real.sqrt (b ^ 2) := Real.sqrt_le_sqrt h
  _ = b := Real.sqrt_sq hb

lemma le_sqrt_bound {a b : ℝ} (ha : 0 ≤ a) (h : a ^ 2 ≤ b) : a ≤ Real.sqrt b := by
  calc a = Real.sqrt (a ^ 2) := (Real.sqrt_sq ha).symm
  _ ≤ Real.sqrt b := Real.sqrt_le_sqrt h

end ListLemmas

section VolatilityLemmas

lemma calculate_volatility_formula (prices : List ℝ) (hret : pctChange prices ≠ []) :
    calculate_volatility prices = some (.real (pyround2
      (Real.sqrt (popVar (pctChange prices)) * Real.sqrt 252 * 100))) := by
  have hne : prices.isEmpty = false := by
    cases prices with
    | nil => simp [pctChange] at hret
    | cons a t => rfl
  have hretE : (pctChange prices).isEmpty = false := by
    cases hpc : pctChange prices with
    | nil => exact absurd hpc hret
    | cons a t => rfl
  simp only [calculate_volatility, hne, Bool.false_eq_true, if_false,
    np_std, hretE, PyVal.mulC, PyVal.round2]

end VolatilityLemmas

section DrawdownLemmas

lemma pctChange_length (l : List ℝ) : (pctChange l).length = l.length - 1 := by
  rw [pctChange, List.length_zipWith, List.length_tail]
  omega

lemma pctChange_growth_pos (l : List ℝ) (hl : ∀ x ∈ l, 0 < x) :
    ∀ r ∈ pctChange l, 0 < r + 1 := by
  induction l with
  | nil => intro r hr; simp [pctChange] at hr
  | cons a t ih =>
    cases t with
    | nil => intro r hr; simp [pctChange] at hr
    | cons b t2 =>
      intro r hr
      rw [show pctChange (a :: b :: t2) = (b / a - 1) :: pctChange (b :: t2) from rfl] at hr
      rcases List.mem_cons.mp hr with h | h
      · rw [h]
        have hd := div_pos (hl b (by simp)) (hl a (by simp))
        linarith
      · exact ih (fun x hx => hl x (by simp [hx])) r h

lemma pctChange_growth_ge_one (l : List ℝ) (hl : ∀ x ∈ l, 0 < x)
    (hch : l.Chain' (· ≤ ·)) : ∀ r ∈ pctChange l, 1 ≤ r + 1 := by
  induction l with
  | nil => intro r hr; simp [pctChange] at hr
  | cons a t ih =>
    cases t with
    | nil => intro r hr; simp [pctChange] at hr
    | cons b t2 =>
      intro r hr
      rw [show pctChange (a :: b :: t2) = (b / a - 1) :: pctChange (b :: t2) from rfl] at hr
      obtain ⟨hab, htl⟩ := List.chain'_cons.mp hch
      rcases List.mem_cons.mp hr with h | h
      · rw [h]
        have ha := hl a (by simp)
        have hba : 1 ≤ b / a := (one_le_div ha).mpr hab
        linarith
      · exact ih (fun x hx => hl x (by simp [hx])) htl r h

lemma cumprodAux_pos (l : List ℝ) (acc : ℝ) (hacc : 0 < acc)
    (hl : ∀ x ∈ l, 0 < x) : ∀ c ∈ cumprodAux acc l, 0 < c := by
  induction l generalizing acc with
  | nil => intro c hc; simp [cumprodAux] at hc
  | cons x xs ih =>
    intro c hc
    simp only [cumprodAux, List.mem_cons] at hc
    rcases hc with h | h
    · rw [h]; exact mul_pos hacc (hl x (by simp))
    · exact ih (acc * x) (mul_pos hacc (hl x (by simp)))
        (fun y hy => hl y (by simp [hy])) c h

lemma cumprodAux_length (l : List ℝ) (acc : ℝ) :
    (cumprodAux acc l).length = l.length := by
  induction l generalizing acc with
  | nil => rfl
  | cons x xs ih => simp [cumprodAux, ih]

lemma cumprodAux_chain (l : List ℝ) (acc : ℝ) (hacc : 0 < acc)
    (hl : ∀ x ∈ l, 1 ≤ x) :
    (cumprodAux acc l).Chain' (· ≤ ·) := by
  induction l generalizing acc with
  | nil => simp [cumprodAux]
  | cons x xs ih =>
    have hx1 : 1 ≤ x := hl x (by simp)
    have hax : 0 < acc * x := mul_pos hacc (lt_of_lt_of_le zero_lt_one hx1)
    simp only [cumprodAux]
    rw [List.chain'_cons']
    refine ⟨?_, ih (acc * x) hax (fun y hy => hl y (by simp [hy]))⟩
    intro z hz
    cases xs with
    | nil => simp [cumprodAux] at hz
    | cons b bs =>
      simp only [cumprodAux, List.head?_cons, Option.mem_def, Option.some.injEq] at hz
      rw [← hz]
      exact le_mul_of_one_le_right (le_of_lt hax) (hl b (by simp))

lemma dd_aux_nonpos (l : List ℝ) (acc : ℝ) (hacc : 0 < acc)
    (hl : ∀ x ∈ l, 0 < x) :
    ∀ z ∈ List.zipWith (fun c p => (c / p - 1) * 100) l (runningMaxAux acc l), z ≤ 0 := by
  induction l generalizing acc with
  | nil => intro z hz; simp at hz
  | cons y ys ih =>
    intro z hz
    simp only [runningMaxAux, List.zipWith_cons_cons, List.mem_cons] at hz
    rcases hz with h | h
    · rw [h]
      have hy : 0 < y := hl y (by simp)
      have hmax : 0 < max acc y := lt_max_iff.mpr (Or.inr hy)
      have hle : y ≤ max acc y := le_max_right acc y
      have hdiv : y / max acc y ≤ 1 := (div_le_one hmax).mpr hle
      nlinarith
    · exact ih (max acc y) (lt_max_iff.mpr (Or.inl hacc))
        (fun x hx => hl x (by simp [hx])) z h

lemma runningMaxAux_eq_self (l : List ℝ) (acc : ℝ) (hch : l.Chain' (· ≤ ·))
    (hhead : ∀ y ∈ l.head?, acc ≤ y) : runningMaxAux acc l = l := by
  induction l generalizing acc with
  | nil => rfl
  | cons y ys ih =>
    have hay : acc ≤ y := hhead y (by simp)
    obtain ⟨hhd, htl⟩ := List.chain'_cons'.mp hch
    simp only [runningMaxAux]
    rw [max_eq_right hay]
    rw [ih y htl hhd]

lemma runningMax_eq_self (l : List ℝ) (hch : l.Chain' (· ≤ ·)) :
    runningMax l = l := by
  cases l with
  | nil => rfl
  | cons x xs =>
    obtain ⟨hhd, htl⟩ := List.chain'_cons'.mp hch
    simp only [runningMax]
    rw [runningMaxAux_eq_self xs x htl hhd]

lemma foldl_min_le (l : List ℝ) (d : ℝ) : l.foldl min d ≤ d := by
  induction l generalizing d with
  | nil => simp
  | cons x xs ih =>
    simp only [List.foldl_cons]
    exact le_trans (ih (min d x)) (min_le_left d x)

lemma foldl_min_const (l : List ℝ) (d : ℝ) (h : ∀ x ∈ l, d ≤ x) :
    l.foldl min d = d := by
  induction l with
  | nil => rfl
  | cons x xs ih =>
    simp only [List.foldl_cons]
    rw [min_eq_left (h x (by simp))]
    exact ih (fun y hy => h y (by simp [hy]))

lemma zipWith_self_map (f : ℝ → ℝ → ℝ) (l : List ℝ) :
    List.zipWith f l l = l.map (fun x => f x x) := by
  induction l with
  | nil => rfl
  | cons x xs ih => simp [ih]

lemma calculate_max_drawdown_eq (prices : List ℝ) (hE : prices.isEmpty = false)
    (c0 : ℝ) (g' : List ℝ)
    (hg : cumprod ((pctChange prices).map (· + 1)) = c0 :: g') :
    calculate_max_drawdown prices = some (.real (pyround2
      ((List.zipWith (fun c p => (c / p - 1) * 100) g'
        (runningMaxAux c0 g')).foldl min ((c0 / c0 - 1) * 100)))) := by
  simp only [calculate_max_drawdown, hE, Bool.false_eq_true, if_false, hg,
    runningMax, List.zipWith_cons_cons]

end DrawdownLemmas

section PyValLemmas

lemma pydiv_zero_pos {a : ℝ} (ha : 0 < a) : pydiv a 0 = .inf := by
  simp [pydiv, ha]

lemma pypow_inf_pos {e : ℝ} (he : 0 < e) : pypow .inf e = .inf := by
  simp [pypow, he]

lemma subC_inf (c : ℝ) : PyVal.subC .inf c = .inf := rfl

lemma mulC_inf_pos {c : ℝ} (hc : 0 < c) : PyVal.mulC .inf c = .inf := by
  simp [PyVal.mulC, hc]

lemma round2_inf : PyVal.round2 .inf = .inf := rfl

end PyValLemmas

section CagrLemmas

lemma calculate_cagr_pos (prices : List ℝ) (years : ℤ) (hne : prices ≠ [])
    (hy0 : years ≠ 0) (hr : 0 < prices.getLastD 0 / prices.headD 0)
    (hs : prices.headD 0 ≠ 0) :
    calculate_cagr prices years = .ok (some (.real (pyround2
      (((prices.getLastD 0 / prices.headD 0) ^ ((1 : ℝ) / (years : ℝ)) - 1) * 100)))) := by
  have hE : prices.isEmpty = false := by
    cases prices with
    | nil => exact absurd rfl hne
    | cons a t => rfl
  simp only [calculate_cagr, hE, Bool.false_eq_true, if_false, if_neg hy0]
  simp only [pydiv, if_neg hs]
  simp only [pypow]
  rw [if_neg (fun hc => (ne_of_gt hr) hc.1), if_pos (le_of_lt hr)]
  simp only [PyVal.subC, PyVal.mulC, PyVal.round2]

end CagrLemmas

section RollingLemmas

lemma isReal_mulC (v : PyVal) (c : ℝ) : (PyVal.mulC v c).isReal = v.isReal := by
  cases v with
  | nan => rfl
  | inf => simp only [PyVal.mulC]; split_ifs <;> rfl
  | ninf => simp only [PyVal.mulC]; split_ifs <;> rfl
  | real x => rfl

lemma range_countP_window (n : ℕ) :
    (List.range n).countP (fun i => decide (63 ≤ i + 1)) = n + 1 - 63 := by
  induction n with
  | zero => rfl
  | succ n ih =>
    rw [List.range_succ, List.countP_append, ih, List.countP_cons, List.countP_nil]
    by_cases h : 63 ≤ n + 1
    · rw [if_pos (by simpa using h)]
      omega
    · rw [if_neg (by simpa using h)]
      omega

lemma rolling_vol_length (prices : List ℝ) :
    (rolling_vol prices).length = (pctChange prices).length := by
  simp [rolling_vol, rollingStd]

lemma rolling_vol_countP (prices : List ℝ) :
    (rolling_vol prices).countP PyVal.isReal = (pctChange prices).length + 1 - 63 := by
  rw [rolling_vol, rollingStd, List.countP_map, List.countP_map]
  have hfun : ((PyVal.isReal ∘ fun v => PyVal.mulC (PyVal.mulC v (Real.sqrt 252)) 100) ∘
      (fun i => if 63 ≤ i + 1 then
        PyVal.real (Real.sqrt (sampleVar (windowAt 63 (pctChange prices) i)))
      else PyVal.nan)) = (fun i => decide (63 ≤ i + 1)) := by
    funext i
    simp only [Function.comp_apply]
    rw [isReal_mulC, isReal_mulC]
    by_cases h : 63 ≤ i + 1
    · rw [if_pos h]
      simp [PyVal.isReal, h]
    · rw [if_neg h]
      simp [PyVal.isReal, h]
  rw [hfun, range_countP_window]

lemma rolling_vol_getElem (prices : List ℝ) (i : ℕ) (hw : 63 ≤ i + 1)
    (hi : i < (pctChange prices).length) :
    (rolling_vol prices)[i]? = some (PyVal.real
      (Real.sqrt (sampleVar (windowAt 63 (pctChange prices) i)) *
        Real.sqrt 252 * 100)) := by
  rw [rolling_vol, rollingStd, List.getElem?_map, List.getElem?_map,
    List.getElem?_range hi]
  simp only [Option.map_some', if_pos hw, PyVal.mulC]

lemma pct_one_repl (k : ℕ) :
    pctChange (1 :: (List.replicate k (1:ℝ) ++ [2])) = List.replicate k 0 ++ [1] := by
  induction k with
  | zero =>
    simp only [List.replicate, List.nil_append]
    rw [show pctChange [(1:ℝ), 2] = [(2:ℝ) / 1 - 1] from rfl]
    norm_num
  | succ k ih =>
    rw [List.replicate_succ, List.cons_append]
    rw [show pctChange (1 :: 1 :: (List.replicate k (1:ℝ) ++ [2])) =
      ((1:ℝ) / 1 - 1) :: pctChange (1 :: (List.replicate k (1:ℝ) ++ [2])) from rfl]
    rw [ih, List.replicate_succ, List.cons_append]
    norm_num

lemma pct_demo : pctChange demoPrices = List.replicate 62 (0:ℝ) ++ [1] := by
  rw [demoPrices, show (63:ℕ) = 62 + 1 from rfl, List.replicate_succ, List.cons_append]
  exact pct_one_repl 62

lemma demo_returns_len : (pctChange demoPrices).length = 63 := by
  rw [pct_demo]
  simp

lemma demo_mean : mean (List.replicate 62 (0:ℝ) ++ [1]) = 1 / 63 := by
  rw [mean]
  simp [List.sum_append, List.sum_replicate]

lemma demo_sqDev : sqDev (List.replicate 62 (0:ℝ) ++ [1]) = 3906 / 3969 := by
  rw [sqDev, demo_mean]
  simp only [List.map_append, List.map_replicate, List.sum_append,
    List.sum_replicate, nsmul_eq_mul, List.map_cons, List.map_nil,
    List.sum_cons, List.sum_nil]
  norm_num

lemma demo_popVar : popVar (pctChange demoPrices) = 62 / 3969 := by
  rw [pct_demo, popVar, demo_sqDev]
  simp only [List.length_append, List.length_replicate, List.length_cons,
    List.length_nil]
  norm_num

lemma demo_sampleVar : sampleVar (List.replicate 62 (0:ℝ) ++ [1]) = 1 / 63 := by
  rw [sampleVar, demo_sqDev]
  simp only [List.length_append, List.length_replicate, List.length_cons,
    List.length_nil]
  norm_num

lemma demo_window : windowAt 63 (pctChange demoPrices) 62 = pctChange demoPrices := by
  rw [windowAt, show (62 + 1 - 63 : ℕ) = 0 from rfl, List.drop_zero,
    show (62 + 1 : ℕ) = 63 from rfl, ← demo_returns_len, List.take_length]

end RollingLemmas

section Claims

/-- C1: for every price series of at least 2 points (positive closes, per
the PriceSeries data model, which in particular makes the first close
non-zero) and every years > 0, calculate_cagr returns
((lastClose / firstClose) ^ (1 / years) - 1) * 100 rounded to 2 decimals,
where firstClose and lastClose are the first and last observations. -/
theorem C1_cagr_formula (prices : List ℝ) (years : ℤ)
    (h2 : 2 ≤ prices.length) (hy : 0 < years)
    (hpos : ∀ x ∈ prices, 0 < x) :
    calculate_cagr prices years = .ok (some (.real (pyround2
      (((prices.getLastD 0 / prices.headD 0) ^ ((1 : ℝ) / (years : ℝ)) - 1) * 100)))) := by
  have hne : prices ≠ [] := by
    intro h
    rw [h] at h2
    simp at h2
  have hs : 0 < prices.headD 0 := hpos _ (headD_mem hne)
  have he : 0 < prices.getLastD 0 := hpos _ (getLastD_mem hne)
  exact calculate_cagr_pos prices years hne (ne_of_gt hy) (div_pos he hs) (ne_of_gt hs)

/-- C1 witness: calculate_cagr on [100, 110, 121] with years = 2 returns
exactly 10.00, by the theorem applied at that input. -/
theorem C1_witness :
    calculate_cagr [100, 110, 121] 2 = Except.ok (some (PyVal.real 10)) := by
  have h := C1_cagr_formula [100, 110, 121] 2 (by norm_num) (by norm_num)
    (by
      intro x hx
      simp only [List.mem_cons, List.not_mem_nil, or_false] at hx
      rcases hx with h1 | h1 | h1 <;> rw [h1] <;> norm_num)
  rw [h]
  have hd : ([100, 110, 121] : List ℝ).getLastD 0 = 121 := rfl
  have hh : ([100, 110, 121] : List ℝ).headD 0 = 100 := rfl
  rw [hd, hh, show (((2 : ℤ) : ℝ)) = 2 by norm_num]
  have hr : ((121 : ℝ) / 100) ^ ((1 : ℝ) / 2) = 11 / 10 := by
    rw [show ((121 : ℝ) / 100) = ((11 : ℝ) / 10) ^ (2 : ℕ) by norm_num]
    rw [← Real.rpow_natCast ((11 : ℝ) / 10) 2, ← Real.rpow_mul (by norm_num)]
    norm_num
  rw [hr, show ((11 : ℝ) / 10 - 1) * 100 = 10 by norm_num]
  rw [pyround2_eq_of_int 10 1000 (by norm_num)]
  norm_num

/-- C2 counterexample: calculate_cagr does NOT return absent in the claimed
degenerate cases.  A single-point series returns 0.00 (a value, not absent);
negative years produce a numeric result; years = 0 raises ZeroDivisionError;
a zero first close produces +Infinity. -/
theorem C2_counterexample :
    calculate_cagr [100] 2 ≠ Except.ok none ∧
    calculate_cagr [100] 2 = Except.ok (some (PyVal.real 0)) ∧
    calculate_cagr [100, 200] (-1) = Except.ok (some (PyVal.real (-50))) ∧
    calculate_cagr [100, 100] 0 = Except.error () ∧
    calculate_cagr [0, 100] 2 = Except.ok (some PyVal.inf) := by
  have h1 : calculate_cagr [100] 2 = Except.ok (some (PyVal.real 0)) := by
    have h := calculate_cagr_pos [100] 2 (by simp) (by norm_num)
      (by norm_num [List.headD, List.getLastD]) (by norm_num [List.headD])
    rw [h]
    have hd : ([100] : List ℝ).getLastD 0 = 100 := rfl
    have hh : ([100] : List ℝ).headD 0 = 100 := rfl
    rw [hd, hh, show ((100 : ℝ) / 100) = 1 by norm_num, Real.one_rpow,
      show ((1 : ℝ) - 1) * 100 = 0 by norm_num, pyround2_zero]
  have h2 : calculate_cagr [100, 200] (-1) = Except.ok (some (PyVal.real (-50))) := by
    have h := calculate_cagr_pos [100, 200] (-1) (by simp) (by norm_num)
      (by norm_num [List.headD, List.getLastD]) (by norm_num [List.headD])
    rw [h]
    have hd : ([100, 200] : List ℝ).getLastD 0 = 200 := rfl
    have hh : ([100, 200] : List ℝ).headD 0 = 100 := rfl
    rw [hd, hh, show ((200 : ℝ) / 100) = 2 by norm_num]
    rw [show ((1 : ℝ) / (((-1 : ℤ)) : ℝ)) = (((-1 : ℤ)) : ℝ) by push_cast; norm_num]
    rw [Real.rpow_intCast]
    rw [show ((2 : ℝ) ^ (-1 : ℤ) - 1) * 100 = -50 by norm_num]
    rw [pyround2_eq_of_int (-50) (-5000) (by norm_num)]
    norm_num
  refine ⟨by rw [h1]; simp, h1, h2, by simp [calculate_cagr], ?_⟩
  have hh : ([0, 100] : List ℝ).headD 0 = 0 := rfl
  have hd : ([0, 100] : List ℝ).getLastD 0 = 100 := rfl
  simp only [calculate_cagr, List.isEmpty_cons, Bool.false_eq_true, if_false,
    if_neg (by norm_num : ¬(2 : ℤ) = 0), hh, hd]
  rw [pydiv_zero_pos (by norm_num : (0:ℝ) < 100),
    pypow_inf_pos (by positivity : (0:ℝ) < 1 / ((2 : ℤ) : ℝ)), subC_inf,
    mulC_inf_pos (by norm_num : (0:ℝ) < 100), round2_inf]

/-- C2 as amended: calculate_cagr returns absent only for an empty (or
missing) series.  A single-point series with non-zero close and years not
equal to 0 returns 0.00 rather than absent; years = 0 raises
ZeroDivisionError; a zero first close with a positive last close and
positive years yields +Infinity rather than absent. -/
theorem C2_degenerate_behavior (prices : List ℝ) (years : ℤ) :
    (calculate_cagr [] years = .ok none) ∧
    (prices ≠ [] → calculate_cagr prices 0 = .error ()) ∧
    (prices.length = 1 → prices.headD 0 ≠ 0 → years ≠ 0 →
      calculate_cagr prices years = .ok (some (.real 0))) ∧
    (prices ≠ [] → prices.headD 0 = 0 → 0 < prices.getLastD 0 → 0 < years →
      calculate_cagr prices years = .ok (some PyVal.inf)) := by
  refine ⟨by simp [calculate_cagr], ?_, ?_, ?_⟩
  · intro hne
    have hE : prices.isEmpty = false := by
      cases prices with
      | nil => exact absurd rfl hne
      | cons a t => rfl
    simp [calculate_cagr, hE]
  · intro hlen hs hy0
    obtain ⟨p, rfl⟩ := List.length_eq_one.mp hlen
    have hh : ([p] : List ℝ).headD 0 = p := rfl
    have hd : ([p] : List ℝ).getLastD 0 = p := rfl
    rw [hh] at hs
    have h := calculate_cagr_pos [p] years (by simp) hy0
      (by rw [hh, hd, div_self hs]; norm_num) (by rw [hh]; exact hs)
    rw [h, hh, hd, div_self hs, Real.one_rpow,
      show ((1 : ℝ) - 1) * 100 = 0 by norm_num, pyround2_zero]
  · intro hne hs he hy
    have hE : prices.isEmpty = false := by
      cases prices with
      | nil => exact absurd rfl hne
      | cons a t => rfl
    have hyR : (0 : ℝ) < 1 / ((years : ℤ) : ℝ) := by
      have : (0 : ℝ) < ((years : ℤ) : ℝ) := by exact_mod_cast hy
      positivity
    simp only [calculate_cagr, hE, Bool.false_eq_true, if_false,
      if_neg (ne_of_gt hy), hs]
    rw [pydiv_zero_pos he, pypow_inf_pos hyR, subC_inf,
      mulC_inf_pos (by norm_num : (0:ℝ) < 100), round2_inf]

/-- C2 witness: the amended theorem applied at concrete inputs — the empty
series gives absent, the single-point series [3] with years = 7 gives 0.00. -/
theorem C2_witness :
    calculate_cagr [] 5 = Except.ok none ∧
    calculate_cagr [3] 7 = Except.ok (some (PyVal.real 0)) :=
  ⟨(C2_degenerate_behavior [] 5).1,
   (C2_degenerate_behavior [3] 7).2.2.1 (by simp)
     (by norm_num [List.headD]) (by norm_num)⟩

/-- C3 counterexample: on the series [1, 2, 1] (returns 1 and -1/2) the
code's volatility is NOT the annualized SAMPLE standard deviation of the
returns: np.std uses the population variant (ddof 0). -/
theorem C3_counterexample :
    calculate_volatility [1, 2, 1] ≠ some (PyVal.real (pyround2
      (Real.sqrt (sampleVar (pctChange [1, 2, 1])) * Real.sqrt 252 * 100))) := by
  have hpc : pctChange [1, 2, 1] = [1, -(1/2)] := by
    norm_num [pctChange]
  have hpop : popVar [1, -(1/2)] = 9 / 16 := by
    norm_num [popVar, sqDev, mean]
  have hsam : sampleVar [1, -(1/2)] = 9 / 8 := by
    norm_num [sampleVar, sqDev, mean]
  have hcv : calculate_volatility [1, 2, 1] = some (.real (pyround2
      (Real.sqrt (9/16) * Real.sqrt 252 * 100))) := by
    rw [calculate_volatility_formula _ (by rw [hpc]; simp), hpc, hpop]
  rw [hcv, hpc, hsam]
  intro hEq
  simp only [Option.some.injEq, PyVal.real.injEq] at hEq
  have h916 : Real.sqrt (9/16) = 3/4 := by
    rw [show (9/16 : ℝ) = (3/4) ^ 2 by norm_num, Real.sqrt_sq (by norm_num : (0:ℝ) ≤ 3/4)]
  have hs252_le : Real.sqrt 252 ≤ 16 := sqrt_le_bound (by norm_num) (by norm_num)
  have hs252_ge : (15 : ℝ) ≤ Real.sqrt 252 := le_sqrt_bound (by norm_num) (by norm_num)
  have hs98_ge : (1 : ℝ) ≤ Real.sqrt (9/8) := le_sqrt_bound (by norm_num) (by norm_num)
  have ha : Real.sqrt (9/16) * Real.sqrt 252 * 100 ≤ 1200 := by
    rw [h916]
    nlinarith [Real.sqrt_nonneg (252 : ℝ)]
  have hb : (1500 : ℝ) ≤ Real.sqrt (9/8) * Real.sqrt 252 * 100 := by
    have h15 : (15 : ℝ) = 1 * 15 := by norm_num
    have hm : (1 : ℝ) * 15 ≤ Real.sqrt (9/8) * Real.sqrt 252 :=
      mul_le_mul hs98_ge hs252_ge (by norm_num) (Real.sqrt_nonneg _)
    nlinarith
  have hpa := abs_pyround2_sub (Real.sqrt (9/16) * Real.sqrt 252 * 100)
  have hpb := abs_pyround2_sub (Real.sqrt (9/8) * Real.sqrt 252 * 100)
  rw [abs_le] at hpa hpb
  linarith [hpa.2, hpb.1]

/-- C3 as amended: for every price series (positive closes) with at least
2 period-over-period returns, calculate_volatility returns the POPULATION
standard deviation of the returns (np.std default, ddof 0) times sqrt 252
times 100, rounded to 2 decimals. -/
theorem C3_population_volatility (prices : List ℝ)
    (hpos : ∀ x ∈ prices, 0 < x) (h2 : 2 ≤ (pctChange prices).length) :
    calculate_volatility prices = some (PyVal.real (pyround2
      (Real.sqrt (popVar (pctChange prices)) * Real.sqrt 252 * 100))) := by
  apply calculate_volatility_formula
  intro h
  rw [h] at h2
  simp at h2

/-- C3 witness: the amended theorem applied to [1, 2, 1], whose two returns
are 1 and -1/2. -/
theorem C3_witness :
    2 ≤ (pctChange [1, 2, 1]).length ∧
    calculate_volatility [1, 2, 1] = some (PyVal.real (pyround2
      (Real.sqrt (popVar (pctChange [1, 2, 1])) * Real.sqrt 252 * 100))) := by
  have hlen : 2 ≤ (pctChange [1, 2, 1]).length := by norm_num [pctChange]
  refine ⟨hlen, C3_population_volatility [1, 2, 1] ?_ hlen⟩
  intro x hx
  simp only [List.mem_cons, List.not_mem_nil, or_false] at hx
  rcases hx with h1 | h1 | h1 <;> rw [h1] <;> norm_num

/-- C4 counterexample: a single-point series does not give absent — the
empty returns series makes np.std emit NaN, so the result is NaN. -/
theorem C4_counterexample :
    calculate_volatility [100] ≠ none ∧
    calculate_volatility [100] = some PyVal.nan := by
  have h : calculate_volatility [100] = some PyVal.nan := by
    have hpc : pctChange [100] = [] := rfl
    simp [calculate_volatility, hpc, np_std, PyVal.mulC, PyVal.round2]
  exact ⟨by rw [h]; simp, h⟩

/-- C4 as amended: calculate_volatility never raises and returns absent
exactly for the empty series; a single-point series yields NaN (np.std of
an empty returns series) rather than absent. -/
theorem C4_volatility_absent_iff (prices : List ℝ) :
    (calculate_volatility prices = none ↔ prices = []) ∧
    (prices.length = 1 → calculate_volatility prices = some PyVal.nan) := by
  constructor
  · constructor
    · intro h
      by_contra hne
      have hE : prices.isEmpty = false := by
        cases prices with
        | nil => exact absurd rfl hne
        | cons a t => rfl
      simp [calculate_volatility, hE] at h
    · intro h
      rw [h]
      simp [calculate_volatility]
  · intro hlen
    obtain ⟨p, rfl⟩ := List.length_eq_one.mp hlen
    have hpc : pctChange [p] = [] := rfl
    simp [calculate_volatility, hpc, np_std, PyVal.mulC, PyVal.round2]

/-- C4 witness: the amended theorem applied to the empty series and to the
single-point series [7]. -/
theorem C4_witness :
    calculate_volatility [] = none ∧
    calculate_volatility [7] = some PyVal.nan :=
  ⟨(C4_volatility_absent_iff []).1.mpr rfl,
   (C4_volatility_absent_iff [7]).2 rfl⟩

/-- C5: whenever calculate_max_drawdown returns a value (a series of at
least 2 positive closes), that value is at most 0, and for a monotonically
non-decreasing series it is exactly 0.00. -/
theorem C5_drawdown_invariant (prices : List ℝ) (h2 : 2 ≤ prices.length)
    (hpos : ∀ x ∈ prices, 0 < x) :
    (∃ v, calculate_max_drawdown prices = some (PyVal.real v) ∧ v ≤ 0) ∧
    (prices.Chain' (· ≤ ·) → calculate_max_drawdown prices = some (PyVal.real 0)) := by
  have hne : prices ≠ [] := by
    intro h
    rw [h] at h2
    simp at h2
  have hE : prices.isEmpty = false := by
    cases prices with
    | nil => exact absurd rfl hne
    | cons a t => rfl
  have hfac_pos : ∀ x ∈ (pctChange prices).map (· + 1), 0 < x := by
    intro x hx
    obtain ⟨r, hr, rfl⟩ := List.mem_map.mp hx
    exact pctChange_growth_pos prices hpos r hr
  have hg_pos : ∀ c ∈ cumprod ((pctChange prices).map (· + 1)), 0 < c :=
    cumprodAux_pos _ 1 one_pos hfac_pos
  have hg_len : (cumprod ((pctChange prices).map (· + 1))).length = prices.length - 1 := by
    rw [cumprod, cumprodAux_length, List.length_map, pctChange_length]
  obtain ⟨c0, g', hg⟩ : ∃ c0 g',
      cumprod ((pctChange prices).map (· + 1)) = c0 :: g' := by
    cases hgl : cumprod ((pctChange prices).map (· + 1)) with
    | nil => rw [hgl] at hg_len; simp at hg_len; omega
    | cons c0 g' => exact ⟨c0, g', rfl⟩
  have hc0 : 0 < c0 := hg_pos c0 (by rw [hg]; simp)
  have hg'_pos : ∀ x ∈ g', 0 < x := by
    intro x hx
    exact hg_pos x (by rw [hg]; simp [hx])
  have hd0 : (c0 / c0 - 1) * 100 = 0 := by
    rw [div_self (ne_of_gt hc0)]
    norm_num
  have heq := calculate_max_drawdown_eq prices hE c0 g' hg
  constructor
  · refine ⟨_, heq, ?_⟩
    apply pyround2_nonpos
    calc (List.zipWith (fun c p => (c / p - 1) * 100) g'
        (runningMaxAux c0 g')).foldl min ((c0 / c0 - 1) * 100)
        ≤ (c0 / c0 - 1) * 100 := foldl_min_le _ _
    _ = 0 := hd0
  · intro hch
    have hfac_ge : ∀ x ∈ (pctChange prices).map (· + 1), 1 ≤ x := by
      intro x hx
      obtain ⟨r, hr, rfl⟩ := List.mem_map.mp hx
      exact pctChange_growth_ge_one prices hpos hch r hr
    have hchain : (c0 :: g').Chain' (· ≤ ·) := by
      rw [← hg]
      exact cumprodAux_chain _ 1 one_pos hfac_ge
    have hrm := runningMax_eq_self (c0 :: g') hchain
    simp only [runningMax, List.cons.injEq] at hrm
    rw [heq, hrm.2, zipWith_self_map, hd0]
    have hall : ∀ x ∈ g'.map (fun x => (x / x - 1) * 100), (0:ℝ) ≤ x := by
      intro x hx
      obtain ⟨y, hy, rfl⟩ := List.mem_map.mp hx
      rw [div_self (ne_of_gt (hg'_pos y hy))]
      norm_num
    rw [foldl_min_const _ _ hall, pyround2_zero]

/-- C5 witness: the theorem applied to the non-decreasing positive series
[1, 2] gives exactly 0.00. -/
theorem C5_witness : calculate_max_drawdown [1, 2] = some (PyVal.real 0) :=
  (C5_drawdown_invariant [1, 2] (by norm_num)
    (by
      intro x hx
      simp only [List.mem_cons, List.not_mem_nil, or_false] at hx
      rcases hx with h1 | h1 <;> rw [h1] <;> norm_num)).2
    (by norm_num [List.chain'_cons])

/-- C6 counterexample: on [1, 2, 3] (2 returns) the rolling output has
length 2 — one entry per return, the under-window entries being NaN — not
the claimed max(0, returnsCount - window + 1) = 0. -/
theorem C6_counterexample :
    (rolling_vol [1, 2, 3]).length = 2 ∧
    (max 0 (((pctChange [1, 2, 3]).length : ℤ) - 63 + 1)).toNat = 0 ∧
    (rolling_vol [1, 2, 3]).length ≠
      (max 0 (((pctChange [1, 2, 3]).length : ℤ) - 63 + 1)).toNat := by
  have hlen : (pctChange [1, 2, 3] : List ℝ).length = 2 := rfl
  have h1 : (rolling_vol [1, 2, 3]).length = 2 := by
    rw [rolling_vol_length, hlen]
  have h2 : (max 0 (((pctChange [1, 2, 3]).length : ℤ) - 63 + 1)).toNat = 0 := by
    rw [hlen]
    decide
  exact ⟨h1, h2, by rw [h1, h2]; norm_num⟩

/-- C6 as amended: the rolling volatility output has one entry per return
(length = returnsCount), the entries before the window fills being NaN;
the number of defined (non-NaN) entries is returnsCount + 1 - 63 in
truncated subtraction, i.e. max(0, returnsCount - window + 1); short
series give an all-NaN output of the same length, never an error. -/
theorem C6_rolling_shape (prices : List ℝ) :
    (rolling_vol prices).length = (pctChange prices).length ∧
    (rolling_vol prices).countP PyVal.isReal = (pctChange prices).length + 1 - 63 :=
  ⟨rolling_vol_length prices, rolling_vol_countP prices⟩

/-- C7 counterexample: on demoPrices (63 closes at 1 then one at 2) the
single defined rolling value is exactly 200 (annualized SAMPLE std of the
63 returns), while the computeVolatility formula (population std, rounded)
on the same trailing 63 returns is below 199 both before and after
rounding — the two computations do not use the same formula. -/
theorem C7_counterexample :
    (rolling_vol demoPrices)[62]? = some (PyVal.real 200) ∧
    calculate_volatility demoPrices = some (PyVal.real (pyround2
      (Real.sqrt (popVar (pctChange demoPrices)) * Real.sqrt 252 * 100))) ∧
    Real.sqrt (popVar (pctChange demoPrices)) * Real.sqrt 252 * 100 < 199 ∧
    pyround2 (Real.sqrt (popVar (pctChange demoPrices)) * Real.sqrt 252 * 100) < 199 := by
  have h1 : (rolling_vol demoPrices)[62]? = some (PyVal.real
      (Real.sqrt (sampleVar (windowAt 63 (pctChange demoPrices) 62)) *
        Real.sqrt 252 * 100)) :=
    rolling_vol_getElem demoPrices 62 (by norm_num) (by rw [demo_returns_len]; norm_num)
  rw [demo_window, pct_demo, demo_sampleVar] at h1
  have hsqrt : Real.sqrt (1 / 63) * Real.sqrt 252 = 2 := by
    rw [← Real.sqrt_mul (by norm_num : (0:ℝ) ≤ 1 / 63),
      show (1 / 63 : ℝ) * 252 = 2 ^ 2 by norm_num,
      Real.sqrt_sq (by norm_num : (0:ℝ) ≤ 2)]
  rw [hsqrt, show (2 : ℝ) * 100 = 200 by norm_num] at h1
  have h2 : calculate_volatility demoPrices = some (PyVal.real (pyround2
      (Real.sqrt (popVar (pctChange demoPrices)) * Real.sqrt 252 * 100))) := by
    apply calculate_volatility_formula
    intro h
    have := demo_returns_len
    rw [h] at this
    simp at this
  have hbound : Real.sqrt (popVar (pctChange demoPrices)) * Real.sqrt 252 * 100 ≤ 198.5 := by
    rw [demo_popVar, ← Real.sqrt_mul (by norm_num : (0:ℝ) ≤ 62 / 3969)]
    have hs : Real.sqrt (62 / 3969 * 252) ≤ 1.985 :=
      sqrt_le_bound (by norm_num) (by norm_num)
    nlinarith [Real.sqrt_nonneg (62 / 3969 * 252 : ℝ)]
  have hround := abs_pyround2_sub
    (Real.sqrt (popVar (pctChange demoPrices)) * Real.sqrt 252 * 100)
  rw [abs_le] at hround
  exact ⟨h1, h2, by linarith, by linarith [hround.2]⟩

/-- C7 as amended: each defined rolling value (index at least window - 1)
equals the unrounded annualized SAMPLE standard deviation (ddof 1, the
pandas rolling default) of the trailing 63 returns ending at that index —
whereas calculate_volatility uses the POPULATION standard deviation and
rounds, so the two computations do not share one formula. -/
theorem C7_rolling_sample_window (prices : List ℝ) (i : ℕ) (hw : 62 ≤ i)
    (hi : i < (pctChange prices).length) :
    (rolling_vol prices)[i]? = some (PyVal.real
      (Real.sqrt (sampleVar (windowAt 63 (pctChange prices) i)) *
        Real.sqrt 252 * 100)) :=
  rolling_vol_getElem prices i (by omega) hi

/-- C7 witness: the amended theorem applied at demoPrices and index 62. -/
theorem C7_witness :
    62 ≤ 62 ∧ 62 < (pctChange demoPrices).length ∧
    (rolling_vol demoPrices)[62]? = some (PyVal.real
      (Real.sqrt (sampleVar (windowAt 63 (pctChange demoPrices) 62)) *
        Real.sqrt 252 * 100)) :=
  ⟨le_rfl, by rw [demo_returns_len]; norm_num,
   C7_rolling_sample_window demoPrices 62 le_rfl (by rw [demo_returns_len]; norm_num)⟩

/-- C8: for a non-empty series with non-zero first close, normalization is
close / close_0 * 100 pointwise, the first output element is exactly 100,
and normalizing an already-normalized series returns it unchanged. -/
theorem C8_normalize (p0 : ℝ) (rest : List ℝ) (h : p0 ≠ 0) :
    norm_prices (p0 :: rest) = (p0 :: rest).map (fun c => c / p0 * 100) ∧
    (norm_prices (p0 :: rest)).headD 0 = 100 ∧
    norm_prices (norm_prices (p0 :: rest)) = norm_prices (p0 :: rest) := by
  have h100 : p0 / p0 * 100 = 100 := by
    rw [div_self h]
    norm_num
  have hmap : norm_prices (p0 :: rest) = 100 :: rest.map (fun c => c / p0 * 100) := by
    simp only [norm_prices, List.map_cons, h100]
  refine ⟨rfl, ?_, ?_⟩
  · rw [hmap]
    rfl
  · rw [hmap]
    simp only [norm_prices, List.map_cons,
      show (100:ℝ) / 100 * 100 = 100 by norm_num]
    congr 1
    rw [List.map_map]
    apply List.map_congr_left
    intro a _
    simp only [Function.comp_apply]
    ring

/-- C8 witness: the theorem applied to [50, 100], whose normalization is
[100, 200], starts at exactly 100 and is a fixed point of normalization. -/
theorem C8_witness :
    norm_prices [50, 100] = [100, 200] ∧
    (norm_prices [50, 100]).headD 0 = 100 ∧
    norm_prices (norm_prices [50, 100]) = norm_prices [50, 100] := by
  have h := C8_normalize 50 [100] (by norm_num)
  refine ⟨?_, h.2.1, h.2.2⟩
  rw [h.1]
  norm_num

/-- C9: the comparison presenter classifies by the sign of
diff = value1 - value2 — positive diff yields the favorable (positive)
badge unless the orientation is inverted (then unfavorable), negative diff
is the mirror, zero diff is neutral regardless of orientation — and
renders nothing (absent) when either input is absent. -/
theorem C9_compare (x y : ℝ) (r : Bool) (v : Option ℝ) :
    (display_comparison_metric none v r = none) ∧
    (display_comparison_metric v none r = none) ∧
    (0 < x - y → display_comparison_metric (some x) (some y) r =
      some (if r then Badge.negative else Badge.positive)) ∧
    (x - y < 0 → display_comparison_metric (some x) (some y) r =
      some (if r then Badge.positive else Badge.negative)) ∧
    (x - y = 0 → display_comparison_metric (some x) (some y) r =
      some Badge.neutral) := by
  refine ⟨rfl, by cases v <;> rfl, ?_, ?_, ?_⟩
  · intro h
    simp only [display_comparison_metric, if_pos h]
  · intro h
    simp only [display_comparison_metric, if_neg (by linarith : ¬ 0 < x - y), if_pos h]
  · intro h
    simp only [display_comparison_metric, h]
    norm_num

/-- C9 witness: the theorem applied at (10, 5) in both orientations and at
equal values, and with an absent input. -/
theorem C9_witness :
    display_comparison_metric (some 10) (some 5) false = some Badge.positive ∧
    display_comparison_metric (some 10) (some 5) true = some Badge.negative ∧
    display_comparison_metric (some 7) (some 7) true = some Badge.neutral ∧
    display_comparison_metric none (some 3) false = none :=
  ⟨by simpa using (C9_compare 10 5 false (some 5)).2.2.1 (by norm_num),
   by simpa using (C9_compare 10 5 true (some 5)).2.2.1 (by norm_num),
   by simpa using (C9_compare 7 7 true (some 7)).2.2.2.2 (by norm_num),
   (C9_compare 0 0 false (some 3)).1⟩

/-- C10: normalization preserves the shape of the series — one output
point per input point, the same timestamps in the same order; only the
close values are rescaled. -/
theorem C10_normalize_shape (s : List (ℕ × ℝ)) :
    (norm_prices_indexed s).length = s.length ∧
    (norm_prices_indexed s).map Prod.fst = s.map Prod.fst := by
  cases s with
  | nil => exact ⟨rfl, rfl⟩
  | cons hd tl =>
    obtain ⟨t0, c0⟩ := hd
    constructor
    · simp [norm_prices_indexed]
    · simp only [norm_prices_indexed, List.map_map]
      rfl

end Claims

end App
